import Mathlib

set_option maxRecDepth 8192

/-! Shallow embedding of the alias plugin (src/main.py).

The embedding models, directly from the source:
- the Python string operations the plugin uses (strip, startswith,
  slicing, substring test, replace);
- shlex.split in POSIX whitespace-split mode, as called on line 77,
  including its ValueError on an unterminated quote;
- the token grouping of alias_add (lines 78-90), the upsert loop and
  append (lines 92-107), alias_remove (lines 110-120);
- on_message (lines 131-168): the already-processed-flag check, the
  first-prefix-match scan, argument extraction, per-command expansion,
  and construction of the injected events with the flag set to False;
- save/load of the JSON store at the level of JSON values (lines 20-39):
  json.dump is encoding the store to a JSON value, json.load either
  fails (corrupt file) or yields the value back. -/

/-- The single-quote character (written via its code point). -/
def squote : Char := Char.ofNat 39

/-- The double-quote character (written via its code point). -/
def dquote : Char := Char.ofNat 34

/-- The backslash character (written via its code point). -/
def bslash : Char := Char.ofNat 92

/-- Whitespace as recognized by Python str.strip for ASCII input. -/
def pyIsSpace (c : Char) : Bool :=
  c = ' ' || c = '\t' || c = '\n' || c = '\r' || c = '\x0b' || c = '\x0c'

/-- Python str.strip on a character list: drop whitespace at both ends. -/
def stripL (l : List Char) : List Char :=
  ((l.dropWhile pyIsSpace).reverse.dropWhile pyIsSpace).reverse

/-- Python str.strip. -/
def pyStrip (s : String) : String := String.mk (stripL s.data)

/-- Python str.rstrip on a character list: drop trailing whitespace. -/
def rstripL (l : List Char) : List Char :=
  (l.reverse.dropWhile pyIsSpace).reverse

/-- Python str.rstrip. -/
def pyRstrip (s : String) : String := String.mk (rstripL s.data)

/-- Python str.startswith. -/
def pyStartsWith (s pre : String) : Bool := pre.data.isPrefixOf s.data

/-- Python slicing s[n:] (character based, as in Python). -/
def pyDrop (s : String) (n : Nat) : String := String.mk (s.data.drop n)

/-- Python len() on a string (number of characters). -/
def pyLen (s : String) : Nat := s.data.length

/-- Python substring test (the `in` operator) on character lists. -/
def containsSub (pat : List Char) : List Char → Bool
  | [] => pat.isEmpty
  | c :: rest => pat.isPrefixOf (c :: rest) || containsSub pat rest

/-- Python substring test (the `in` operator). -/
def pyContains (s sub : String) : Bool := containsSub sub.data s.data

/-- Python str.replace on character lists: replace each non-overlapping
occurrence of `pat` left to right, resuming after the replaced span.
The fuel argument (instantiated with the input length) only serves
termination; each step consumes at least one character. -/
def replaceAux (pat rep : List Char) : Nat → List Char → List Char
  | _, [] => []
  | 0, l => l
  | fuel + 1, c :: rest =>
    if pat.isPrefixOf (c :: rest) then
      rep ++ replaceAux pat rep fuel ((c :: rest).drop pat.length)
    else c :: replaceAux pat rep fuel rest

/-- Python str.replace for a non-empty pattern (the plugin only replaces
the literal placeholder, which is non-empty). -/
def pyReplace (s pat rep : String) : String :=
  if pat.data.isEmpty then s
  else String.mk (replaceAux pat.data rep.data s.data.length s.data)

/-- The literal placeholder string used on line 155 of main.py. -/
def argsPlaceholder : String := "\x7bargs\x7d"

/-- Lexer states of shlex.read_token in POSIX mode: between tokens,
inside a word, inside a quote, after a backslash in a word, after a
backslash inside double quotes. -/
inductive ShState where
  | ws
  | word
  | inQuote (q : Char)
  | escWord
  | escDQuote

/-- shlex.whitespace. -/
def shlexWhitespace (c : Char) : Bool :=
  c = ' ' || c = '\t' || c = '\r' || c = '\n'

/-- shlex.quotes. -/
def shlexIsQuote (c : Char) : Bool := c = squote || c = dquote

/-- The character loop of shlex.read_token (POSIX, whitespace_split,
no comment characters, escape is backslash, escapedquotes is the double
quote), fused over the whole input to produce the token list.
`tok` is the token being accumulated, `quoted` records whether the
current token passed through a quote state (an empty quoted token is
still emitted), `acc` holds finished tokens in reverse. An unterminated
quote or trailing escape raises ValueError, modelled as Except.error
with CPython's message. -/
def shlexSplitAux : ShState → List Char → Bool → List String → List Char →
    Except String (List String)
  | .ws, tok, quoted, acc, [] =>
    if tok.isEmpty && !quoted then .ok acc.reverse
    else .ok (String.mk tok :: acc).reverse
  | .word, tok, quoted, acc, [] =>
    if tok.isEmpty && !quoted then .ok acc.reverse
    else .ok (String.mk tok :: acc).reverse
  | .inQuote _, _, _, _, [] => .error "No closing quotation"
  | .escWord, _, _, _, [] => .error "No escaped character"
  | .escDQuote, _, _, _, [] => .error "No escaped character"
  | .ws, tok, quoted, acc, c :: rest =>
    if shlexWhitespace c then
      if tok.isEmpty && !quoted then shlexSplitAux .ws tok quoted acc rest
      else shlexSplitAux .ws [] false (String.mk tok :: acc) rest
    else if c = bslash then shlexSplitAux .escWord tok quoted acc rest
    else if shlexIsQuote c then shlexSplitAux (.inQuote c) tok quoted acc rest
    else shlexSplitAux .word (tok ++ [c]) quoted acc rest
  | .word, tok, quoted, acc, c :: rest =>
    if shlexWhitespace c then
      if tok.isEmpty && !quoted then shlexSplitAux .ws [] false acc rest
      else shlexSplitAux .ws [] false (String.mk tok :: acc) rest
    else if shlexIsQuote c then shlexSplitAux (.inQuote c) tok quoted acc rest
    else if c = bslash then shlexSplitAux .escWord tok quoted acc rest
    else shlexSplitAux .word (tok ++ [c]) quoted acc rest
  | .inQuote q, tok, _, acc, c :: rest =>
    if c = q then shlexSplitAux .word tok true acc rest
    else if q = dquote && c = bslash then shlexSplitAux .escDQuote tok true acc rest
    else shlexSplitAux (.inQuote q) (tok ++ [c]) true acc rest
  | .escWord, tok, quoted, acc, c :: rest =>
    shlexSplitAux .word (tok ++ [c]) quoted acc rest
  | .escDQuote, tok, quoted, acc, c :: rest =>
    if c = bslash || c = dquote then
      shlexSplitAux (.inQuote dquote) (tok ++ [c]) quoted acc rest
    else shlexSplitAux (.inQuote dquote) (tok ++ [bslash, c]) quoted acc rest

/-- shlex.split as called on line 77 of main.py. -/
def shlexSplit (s : String) : Except String (List String) :=
  shlexSplitAux .ws [] false [] s.data

/-- The token-grouping loop of alias_add (lines 78-90): accumulate
tokens into the current command, starting a new command whenever a
token begins with "/" and the accumulator is non-empty; flush the
final accumulator. -/
def groupTokensAux : List String → String → List String → List String
  | [], current, acc =>
    if current != "" then acc ++ [pyStrip current] else acc
  | t :: rest, current, acc =>
    if pyStartsWith t "/" && current != "" then
      groupTokensAux rest t (acc ++ [pyStrip current])
    else if current != "" then
      groupTokensAux rest (current ++ " " ++ t) acc
    else
      groupTokensAux rest t acc

/-- Token grouping of alias_add with the initial empty accumulator. -/
def groupTokens (tokens : List String) : List String := groupTokensAux tokens "" []

/-- The full mapping-string-to-command-list pipeline of alias_add
(lines 77-90): shlex.split, then prefix-token grouping. -/
def mappingToCmds (s : String) : Except String (List String) :=
  match shlexSplit s with
  | .ok tokens => .ok (groupTokens tokens)
  | .error e => .error e

/-- One stored alias entry: the dict \x7b"name": ..., "commands": ...\x7d. -/
structure Alias where
  name : String
  commands : List String
deriving DecidableEq

/-- The update loop of alias_add (lines 92-97): find the first entry
with the given name and replace its command list; report whether an
entry was updated. -/
def upsertStore : List Alias → String → List String → List Alias × Bool
  | [], _, _ => ([], false)
  | a :: rest, name, cmds =>
    if a.name = name then (Alias.mk a.name cmds :: rest, true)
    else
      let r := upsertStore rest name cmds
      (a :: r.1, r.2)

/-- The store effect of alias_add (lines 92-107): update in place if
the name exists, else append a new entry; the Bool reports update
versus insert. -/
def alias_upsert (store : List Alias) (name : String) (cmds : List String) :
    List Alias × Bool :=
  let r := upsertStore store name cmds
  if r.2 then (r.1, true) else (r.1 ++ [Alias.mk name cmds], false)

/-- The plain-text replies alias_add can yield. -/
inductive AddReply where
  | promptEmpty
  | updated (name : String)
  | added (name : String)
deriving DecidableEq

/-- alias_add (lines 61-108): reject an empty mapping string with a
prompt; otherwise tokenize (an unterminated quote raises out of the
handler, modelled as Except.error), group into commands, upsert, and
persist. Result: (reply, new store, whether save_alias_store ran). -/
def alias_add (store : List Alias) (name commandsStr : String) :
    Except String (AddReply × List Alias × Bool) :=
  if commandsStr = "" then .ok (.promptEmpty, store, false)
  else
    match shlexSplit commandsStr with
    | .error e => .error e
    | .ok tokens =>
      let cmds := groupTokens tokens
      let r := alias_upsert store name cmds
      if r.2 then .ok (.updated name, r.1, true)
      else .ok (.added name, r.1, true)

/-- The plain-text replies alias_remove can yield. -/
inductive RemoveReply where
  | removed (name : String)
  | notFound (name : String)
deriving DecidableEq

/-- alias_remove (lines 110-120): filter out every entry with the given
name; persist (and reply success) only when the store shrank. Result:
(reply, new store, whether save_alias_store ran). -/
def alias_remove (store : List Alias) (name : String) :
    RemoveReply × List Alias × Bool :=
  let newStore := store.filter (fun a => a.name != name)
  if newStore.length < store.length then (.removed name, newStore, true)
  else (.notFound name, newStore, false)

/-- The fields of an AstrMessageEvent the engine reads or writes:
the text, the session, and the _alias_processed flag (getattr default
False on line 139; set explicitly to False on line 165). -/
structure Event where
  message_str : String
  session_id : String
  alias_processed : Bool
deriving DecidableEq

/-- Per-command expansion (line 155): replace every occurrence of the
placeholder when present, else append the args after a space and strip
(Python str.strip trims both ends of the f-string result). -/
def expandCommand (cmd args : String) : String :=
  if pyContains cmd argsPlaceholder then pyReplace cmd argsPlaceholder args
  else pyStrip (cmd ++ " " ++ args)

/-- Modelled from the spec, section 4.3 step 4, for comparison with
expandCommand: replace every occurrence of the placeholder when
present; otherwise append a single space plus args (no space when args
is empty) and trim trailing whitespace. -/
def specExpandCommand (cmd args : String) : String :=
  if pyContains cmd argsPlaceholder then pyReplace cmd argsPlaceholder args
  else if args = "" then pyRstrip cmd
  else pyRstrip (cmd ++ " " ++ args)

/-- The matching scan of on_message (lines 145-148): first entry whose
name is a literal character prefix of the message wins; the remainder
after the name, stripped, becomes the args. -/
def findAlias : List Alias → String → Option (Alias × String)
  | [], _ => none
  | a :: rest, message =>
    if pyStartsWith message a.name then
      some (a, pyStrip (pyDrop message (pyLen a.name)))
    else findAlias rest message

/-- on_message (lines 131-168): skip events whose already-processed
flag is set; otherwise strip the text, scan for the first prefix-
matching alias, and on a match stop the original event and inject one
new event per command, in order, each carrying the flag set to False.
Result: (stop_event called, injected events in order). -/
def on_message (store : List Alias) (e : Event) : Bool × List Event :=
  if e.alias_processed then (false, [])
  else
    let message := pyStrip e.message_str
    match findAlias store message with
    | none => (false, [])
    | some (a, args) =>
      (true, a.commands.map (fun cmd =>
        Event.mk (expandCommand cmd args) e.session_id false))

/-- JSON values, the common representation between json.dump and
json.load. -/
inductive Json where
  | null
  | jbool (b : Bool)
  | jnum (n : Int)
  | jstr (s : String)
  | jarr (xs : List Json)
  | jobj (fields : List (String × Json))

/-- The JSON value json.dump writes for one alias entry (dict key
order is insertion order: "name" then "commands"). -/
def encodeAlias (a : Alias) : Json :=
  Json.jobj [("name", Json.jstr a.name), ("commands", Json.jarr (a.commands.map Json.jstr))]

/-- The JSON value json.dump writes for the whole store (line 36). -/
def encodeStore (store : List Alias) : Json :=
  Json.jarr (store.map encodeAlias)

/-- save_alias_store (lines 33-39) at the JSON-value level: the durable
content written is the encoding of the in-memory store. -/
def save_alias_store (store : List Alias) : Json := encodeStore store

/-- Reading a JSON string value back. -/
def decodeStr : Json → Except String String
  | .jstr s => .ok s
  | _ => .error "bad string"

/-- Reading a list of JSON string values back. -/
def decodeStrList : List Json → Except String (List String)
  | [] => .ok []
  | j :: rest =>
    match decodeStr j, decodeStrList rest with
    | .ok s, .ok l => .ok (s :: l)
    | .error e, _ => .error e
    | .ok _, .error e => .error e

/-- Reading one alias entry back from its JSON value. -/
def decodeAlias : Json → Except String Alias
  | .jobj [(k1, v1), (k2, v2)] =>
    if k1 == "name" && k2 == "commands" then
      match v1, v2 with
      | .jstr n, .jarr cs =>
        match decodeStrList cs with
        | .ok cmds => .ok (Alias.mk n cmds)
        | .error e => .error e
      | _, _ => .error "bad alias"
    else .error "bad alias"
  | _ => .error "bad alias"

/-- Reading a list of alias entries back from JSON values. -/
def decodeStoreAux : List Json → Except String (List Alias)
  | [] => .ok []
  | j :: rest =>
    match decodeAlias j, decodeStoreAux rest with
    | .ok a, .ok l => .ok (a :: l)
    | .error e, _ => .error e
    | .ok _, .error e => .error e

/-- Reading the whole store back from its JSON value. -/
def decodeStore : Json → Except String (List Alias)
  | .jarr xs => decodeStoreAux xs
  | _ => .error "bad store"

/-- The observable states of the durable file when load runs: absent,
unparseable by json.load (which raises inside the try), or parsed to a
JSON value. -/
inductive FileState where
  | absent
  | corrupt
  | content (j : Json)

/-- load_alias_store (lines 20-31): missing file yields the empty
table; a json.load failure is caught and yields the empty table; a
parsed value is taken as the store (read back from the JSON value in
this typed embedding). -/
def load_alias_store : FileState → List Alias
  | .absent => []
  | .corrupt => []
  | .content j =>
    match decodeStore j with
    | .ok st => st
    | .error _ => []

/-! Helper lemmas shared by the claim theorems. -/

theorem data_append (s t : String) : (s ++ t).data = s.data ++ t.data := rfl

theorem decodeStrList_map_jstr (l : List String) :
    decodeStrList (l.map Json.jstr) = .ok l := by
  induction l with
  | nil => rfl
  | cons s rest ih => simp [decodeStrList, decodeStr, ih]

theorem decodeAlias_encodeAlias (a : Alias) : decodeAlias (encodeAlias a) = .ok a := by
  simp [encodeAlias, decodeAlias, decodeStrList_map_jstr]

theorem decodeStoreAux_map (store : List Alias) :
    decodeStoreAux (store.map encodeAlias) = .ok store := by
  induction store with
  | nil => rfl
  | cons a rest ih => simp [decodeStoreAux, decodeAlias_encodeAlias, ih]

/-! Claim theorems. -/

/-- Claim C7: if deserialization of the durable file fails, load raises
nothing (the model is a total function) and the resulting table is
empty; if the file is absent the table is likewise empty. -/
theorem load_failure_yields_empty_table :
    load_alias_store FileState.absent = [] ∧ load_alias_store FileState.corrupt = [] :=
  ⟨rfl, rfl⟩

/-- Claim C8: save followed by load reproduces exactly the same
sequence of (name, commands) pairs, in the same order. -/
theorem save_load_round_trip (store : List Alias) :
    load_alias_store (FileState.content (save_alias_store store)) = store := by
  simp [load_alias_store, save_alias_store, encodeStore, decodeStore, decodeStoreAux_map]

/-- Claim C1 counterexample: with alias "a" mapped to command "a", the
event "a" (flag False) expands to an injected event identical to
itself, flag still False; fed back into on_message it is matched and
expanded again, so expansion loops forever. This refutes the claim
that every expanded command is flagged and never matched again. -/
theorem expanded_event_rematched_counterexample :
    (on_message [Alias.mk "a" ["a"]] (Event.mk "a" "s" false)).1 = true
    ∧ (on_message [Alias.mk "a" ["a"]] (Event.mk "a" "s" false)).2
        = [Event.mk "a" "s" false]
    ∧ (Event.mk "a" "s" false).alias_processed = false :=
  ⟨rfl, rfl, rfl⟩

/-- Claim C1 (amended): on_message skips events whose
already-processed flag is set, but every event it injects carries the
flag explicitly set to False, so a fed-back expanded command whose
text starts with a registered alias name is matched and expanded
again and an infinite expansion loop is possible. -/
theorem on_message_flag_behavior (store : List Alias) (e : Event) :
    (e.alias_processed = true → on_message store e = (false, []))
    ∧ (∀ e2 ∈ (on_message store e).2, e2.alias_processed = false) := by
  constructor
  · intro h
    simp [on_message, h]
  · intro e2 h2
    unfold on_message at h2
    by_cases hf : e.alias_processed
    · simp [hf] at h2
    · simp [hf] at h2
      rcases hm : findAlias store (pyStrip e.message_str) with _ | ⟨a, args⟩
      · rw [hm] at h2
        simp at h2
      · rw [hm] at h2
        simp [List.mem_map] at h2
        obtain ⟨cmd, _, hcmd⟩ := h2
        rw [← hcmd]

/-- Witness for on_message_flag_behavior at a concrete flagged event. -/
theorem on_message_flag_behavior_witness :
    on_message [Alias.mk "a" ["/x"]] (Event.mk "a" "s" true) = (false, []) :=
  (on_message_flag_behavior [Alias.mk "a" ["/x"]] (Event.mk "a" "s" true)).1 rfl

/-- Claim C2 counterexample: the mapping string from the claim
tokenizes to commands ["cmd1 arg with space ;", "/cmd2"], not the
claimed ["cmd1 \"arg with space\"", "/cmd2"]: shlex strips the quotes
and the lone ";" token is kept inside the first command. -/
theorem tokenizer_quote_counterexample :
    mappingToCmds "cmd1 \"arg with space\" ; /cmd2"
      = .ok ["cmd1 arg with space ;", "/cmd2"]
    ∧ (["cmd1 arg with space ;", "/cmd2"] : List String)
        ≠ ["cmd1 \"arg with space\"", "/cmd2"] :=
  ⟨rfl, by decide⟩

/-- Claim C2 (amended): the double-quoted span is kept as one token
grouping the embedded space, but the quotes are stripped from the
token and the freestanding ";" is retained at the end of the first
command, giving ["cmd1 arg with space ;", "/cmd2"]. -/
theorem tokenizer_quote_grouping :
    shlexSplit "cmd1 \"arg with space\" ; /cmd2"
      = .ok ["cmd1", "arg with space", ";", "/cmd2"]
    ∧ mappingToCmds "cmd1 \"arg with space\" ; /cmd2"
        = .ok ["cmd1 arg with space ;", "/cmd2"] :=
  ⟨rfl, rfl⟩

/-- Claim C3 counterexample: the whitespace-only mapping string " " is
non-empty, tokenizes to an empty command list, and alias_add still
adds the entry with empty commands and persists the store, instead of
failing and leaving the store unchanged. -/
theorem alias_add_empty_commands_counterexample :
    alias_add [] "x" " " = .ok (.added "x", [Alias.mk "x" []], true)
    ∧ ([Alias.mk "x" []] : List Alias) ≠ [] :=
  ⟨rfl, by decide⟩

/-- Claim C3 (amended): alias_add fails (replying with a prompt to
enter commands) if and only if the mapping string is empty, and on
that failure the store is unchanged and nothing is persisted; an
empty alias name or a mapping tokenizing to an empty command list is
not rejected — the entry is added or updated (possibly with an empty
command list) and the store is persisted. -/
theorem alias_add_fails_iff_empty_mapping (store : List Alias) (name s : String) :
    alias_add store name s = .ok (.promptEmpty, store, false) ↔ s = "" := by
  constructor
  · intro h
    by_contra hs
    unfold alias_add at h
    rw [if_neg hs] at h
    rcases htok : shlexSplit s with e | tokens
    · rw [htok] at h
      simp at h
    · rw [htok] at h
      by_cases hu : (alias_upsert store name (groupTokens tokens)).2
      · simp [hu] at h
      · simp [hu] at h
  · intro h
    subst h
    rfl

/-- Witness for alias_add_fails_iff_empty_mapping at the empty mapping. -/
theorem alias_add_fails_iff_empty_mapping_witness :
    alias_add [] "n" "" = .ok (.promptEmpty, [], false) :=
  (alias_add_fails_iff_empty_mapping [] "n" "").mpr rfl

/-- Claim C4 counterexample: on the unterminated-quote mapping string,
shlex raises ValueError "No closing quotation" and the exception
propagates out of the add handler (modelled as Except.error) instead
of being converted into a plain-text reply. -/
theorem unterminated_quote_counterexample :
    alias_add [] "n" "\"a" = .error "No closing quotation" :=
  rfl

/-- Claim C4 (amended): any tokenizer error on a mapping string
propagates uncaught out of alias_add; no plain-text reply is produced
for an unterminated quote. -/
theorem alias_add_propagates_tokenizer_error (store : List Alias) (name s e : String)
    (h : shlexSplit s = .error e) : alias_add store name s = .error e := by
  have hs : s ≠ "" := by
    intro hs0
    subst hs0
    have hok : shlexSplit "" = .ok [] := rfl
    rw [hok] at h
    simp at h
  unfold alias_add
  rw [if_neg hs, h]

/-- Witness for alias_add_propagates_tokenizer_error at a concrete
unterminated-quote input. -/
theorem alias_add_propagates_tokenizer_error_witness :
    alias_add [] "n" "\"ab" = .error "No closing quotation" :=
  alias_add_propagates_tokenizer_error [] "n" "\"ab" "No closing quotation" rfl

/-- Claim C5: the matcher scans aliases in store order and selects the
first alias whose name is a literal character prefix of the input,
regardless of what follows it in the store; concretely, with "a"
registered before "ab", input "ab" matches "a" with trailing args
"b". -/
theorem first_registered_prefix_wins :
    (∀ (pre post : List Alias) (a : Alias) (msg : String),
      (∀ b ∈ pre, pyStartsWith msg b.name = false) →
      pyStartsWith msg a.name = true →
      findAlias (pre ++ a :: post) msg
        = some (a, pyStrip (pyDrop msg (pyLen a.name))))
    ∧ (∀ cs1 cs2 : List String,
      findAlias [Alias.mk "a" cs1, Alias.mk "ab" cs2] "ab"
        = some (Alias.mk "a" cs1, "b")) := by
  constructor
  · intro pre post a msg hpre ha
    induction pre with
    | nil => simp [findAlias, ha]
    | cons b rest ih =>
      have hb := hpre b (by simp)
      simp only [List.cons_append, findAlias, hb, Bool.false_eq_true, if_false]
      exact ih fun x hx => hpre x (by simp [hx])
  · intro cs1 cs2
    rfl

/-- Witness for first_registered_prefix_wins: a non-matching entry
before the matching one, and another matching entry after it. -/
theorem first_registered_prefix_wins_witness :
    findAlias ([Alias.mk "x" ["/p"]] ++ Alias.mk "ab" ["/q"] :: [Alias.mk "a" ["/r"]]) "ab c"
      = some (Alias.mk "ab" ["/q"], pyStrip (pyDrop "ab c" (pyLen "ab"))) :=
  first_registered_prefix_wins.1 [Alias.mk "x" ["/p"]] [Alias.mk "a" ["/r"]]
    (Alias.mk "ab" ["/q"]) "ab c" (by decide) (by decide)

/-- Claim C10: remove deletes every entry whose name equals the given
name, keeping the others in order (the new store is exactly the
filter); it persists if and only if some entry matched; removing an
absent name leaves the store unchanged and does not persist. -/
theorem remove_semantics (store : List Alias) (name : String) :
    (alias_remove store name).2.1 = store.filter (fun a => a.name != name)
    ∧ ((alias_remove store name).2.2 = true ↔ ∃ a ∈ store, a.name = name)
    ∧ ((∀ a ∈ store, a.name ≠ name) →
        alias_remove store name = (.notFound name, store, false)) := by
  refine ⟨?_, ?_, ?_⟩
  · by_cases hlt : (store.filter (fun a => a.name != name)).length < store.length
    · simp [alias_remove, hlt]
    · simp [alias_remove, hlt]
  · by_cases hlt : (store.filter (fun a => a.name != name)).length < store.length
    · simp only [alias_remove, hlt, if_true]
      simp only [true_iff]
      obtain ⟨x, hx, hpx⟩ := List.length_filter_lt_length_iff_exists.mp hlt
      exact ⟨x, hx, by simpa using hpx⟩
    · simp only [alias_remove, hlt, if_false]
      simp only [Bool.false_eq_true, false_iff]
      intro hex
      obtain ⟨x, hx, hxe⟩ := hex
      exact hlt (List.length_filter_lt_length_iff_exists.mpr ⟨x, hx, by simp [hxe]⟩)
  · intro hnone
    have hself : store.filter (fun a => a.name != name) = store :=
      List.filter_eq_self.mpr fun a ha => by simpa using hnone a ha
    simp [alias_remove, hself]

/-- Witness for remove_semantics: removing an absent name from a
concrete store is a no-op that does not persist. -/
theorem remove_semantics_witness :
    alias_remove [Alias.mk "x" ["/a"]] "z"
      = (.notFound "z", [Alias.mk "x" ["/a"]], false) :=
  (remove_semantics [Alias.mk "x" ["/a"]] "z").2.2 (by decide)

theorem upsertStore_not_found (store : List Alias) (name : String) (cmds : List String)
    (h : ∀ a ∈ store, a.name ≠ name) : upsertStore store name cmds = (store, false) := by
  induction store with
  | nil => rfl
  | cons b rest ih =>
    have hb : b.name ≠ name := h b (by simp)
    simp [upsertStore, hb, ih fun a ha => h a (by simp [ha])]

theorem map_no_match (l : List Alias) (name : String) (x : Alias)
    (h : ∀ a ∈ l, a.name ≠ name) :
    l.map (fun a => if a.name = name then x else a) = l := by
  induction l with
  | nil => rfl
  | cons b rest ih =>
    have hb : b.name ≠ name := h b (by simp)
    simp [hb, ih fun a ha => h a (by simp [ha])]

theorem filter_name_nil_mem {l : List Alias} {name : String}
    (h : l.filter (fun a => a.name == name) = []) : ∀ a ∈ l, a.name ≠ name := by
  intro a ha
  have := List.filter_eq_nil_iff.mp h a ha
  simpa using this

theorem rest_no_match {b : Alias} {rest : List Alias} {name : String}
    (hb : b.name = name)
    (hcount : ((b :: rest).filter (fun a => a.name == name)).length ≤ 1) :
    rest.filter (fun a => a.name == name) = [] := by
  rw [List.filter_cons] at hcount
  simp only [hb, beq_self_eq_true, if_true, List.length_cons] at hcount
  have h0 : (rest.filter (fun a => a.name == name)).length = 0 := by omega
  exact List.length_eq_zero.mp h0

theorem upsertStore_found (store : List Alias) (name : String) (cmds : List String)
    (hcount : (store.filter (fun a => a.name == name)).length ≤ 1)
    (hfound : ∃ a ∈ store, a.name = name) :
    upsertStore store name cmds
      = (store.map (fun a => if a.name = name then Alias.mk name cmds else a), true) := by
  induction store with
  | nil => simp at hfound
  | cons b rest ih =>
    by_cases hb : b.name = name
    · have hrest := filter_name_nil_mem (rest_no_match hb hcount)
      simp [upsertStore, hb, map_no_match rest name _ hrest]
    · have hcount2 : (rest.filter (fun a => a.name == name)).length ≤ 1 := by
        rw [List.filter_cons] at hcount
        simpa [hb] using hcount
      have hfound2 : ∃ a ∈ rest, a.name = name := by
        obtain ⟨x, hx, hxe⟩ := hfound
        rcases List.mem_cons.mp hx with h1 | h2
        · subst h1
          exact absurd hxe hb
        · exact ⟨x, h2, hxe⟩
      simp [upsertStore, hb, ih hcount2 hfound2]

theorem filter_map_once (store : List Alias) (name : String) (cmds : List String)
    (hcount : (store.filter (fun a => a.name == name)).length ≤ 1)
    (hfound : ∃ a ∈ store, a.name = name) :
    (store.map (fun a => if a.name = name then Alias.mk name cmds else a)).filter
        (fun a => a.name == name) = [Alias.mk name cmds] := by
  induction store with
  | nil => simp at hfound
  | cons b rest ih =>
    by_cases hb : b.name = name
    · have hrest0 := rest_no_match hb hcount
      have hrest := filter_name_nil_mem hrest0
      simp [hb, map_no_match rest name _ hrest, List.filter_cons, hrest0]
    · have hcount2 : (rest.filter (fun a => a.name == name)).length ≤ 1 := by
        rw [List.filter_cons] at hcount
        simpa [hb] using hcount
      have hfound2 : ∃ a ∈ rest, a.name = name := by
        obtain ⟨x, hx, hxe⟩ := hfound
        rcases List.mem_cons.mp hx with h1 | h2
        · subst h1
          exact absurd hxe hb
        · exact ⟨x, h2, hxe⟩
      simp [hb, List.filter_cons, ih hcount2 hfound2]

/-- Claim C9: under the store invariant that a name occurs at most
once, after the add/upsert of (name, cmds) the store contains exactly
one entry for name and its commands are the most recent cmds; an
update of an existing name keeps its original position (the store is
the pointwise replacement), while an insert of a new name appends at
the end. -/
theorem upsert_semantics (store : List Alias) (name : String) (cmds : List String)
    (h : (store.filter (fun a => a.name == name)).length ≤ 1) :
    (alias_upsert store name cmds).1.filter (fun a => a.name == name)
        = [Alias.mk name cmds]
    ∧ ((∃ a ∈ store, a.name = name) →
        (alias_upsert store name cmds).1
          = store.map (fun a => if a.name = name then Alias.mk name cmds else a))
    ∧ ((∀ a ∈ store, a.name ≠ name) →
        (alias_upsert store name cmds).1 = store ++ [Alias.mk name cmds]) := by
  by_cases hfound : ∃ a ∈ store, a.name = name
  · have hru := upsertStore_found store name cmds h hfound
    refine ⟨?_, fun _ => ?_, fun hnone => ?_⟩
    · simp only [alias_upsert, hru, if_true]
      exact filter_map_once store name cmds h hfound
    · simp [alias_upsert, hru]
    · obtain ⟨x, hx, hxe⟩ := hfound
      exact absurd hxe (hnone x hx)
  · have hnone : ∀ a ∈ store, a.name ≠ name := by
      intro a ha he
      exact hfound ⟨a, ha, he⟩
    have hru := upsertStore_not_found store name cmds hnone
    refine ⟨?_, fun hf => absurd hf hfound, fun _ => ?_⟩
    · simp only [alias_upsert, hru, Bool.false_eq_true, if_false]
      have h0 : store.filter (fun a => a.name == name) = [] :=
        List.filter_eq_nil_iff.mpr fun a ha => by simp [hnone a ha]
      simp [List.filter_append, h0]
    · simp [alias_upsert, hru]

/-- Witness for upsert_semantics: updating "x" in a concrete
two-entry store. -/
theorem upsert_semantics_witness :
    (alias_upsert [Alias.mk "x" ["/a"], Alias.mk "y" ["/b"]] "x" ["/c"]).1.filter
        (fun a => a.name == "x") = [Alias.mk "x" ["/c"]] :=
  (upsert_semantics [Alias.mk "x" ["/a"], Alias.mk "y" ["/b"]] "x" ["/c"] (by decide)).1

theorem dropWhile_head_false {p : Char → Bool} {x : Char} {xs : List Char}
    (h : (x :: xs).dropWhile p = x :: xs) : p x = false := by
  by_cases hx : p x = true
  · rw [List.dropWhile_cons_of_pos hx] at h
    have hlen : (xs.dropWhile p).length ≤ xs.length := (List.dropWhile_sublist p).length_le
    rw [h] at hlen
    simp at hlen
  · simpa using hx

theorem dropWhile_append_of_head {p : Char → Bool} {x : Char} (xs m : List Char)
    (hx : p x = false) : ((x :: xs) ++ m).dropWhile p = (x :: xs) ++ m := by
  rw [List.cons_append, List.dropWhile_cons_of_neg (by simp [hx])]

theorem stripped_parts {l : List Char} (h : stripL l = l) :
    l.dropWhile pyIsSpace = l ∧ l.reverse.dropWhile pyIsSpace = l.reverse := by
  have hlen1 : (l.dropWhile pyIsSpace).length ≤ l.length :=
    (List.dropWhile_sublist _).length_le
  have hlen2 : ((l.dropWhile pyIsSpace).reverse.dropWhile pyIsSpace).length
      ≤ (l.dropWhile pyIsSpace).length := by
    have hs := (List.dropWhile_sublist (l := (l.dropWhile pyIsSpace).reverse) pyIsSpace).length_le
    simpa using hs
  have hll : ((l.dropWhile pyIsSpace).reverse.dropWhile pyIsSpace).length = l.length := by
    have hc := congrArg List.length h
    simpa [stripL] using hc
  have h1 : l.dropWhile pyIsSpace = l :=
    (List.dropWhile_sublist _).eq_of_length (by omega)
  refine ⟨h1, ?_⟩
  have h2 : (l.dropWhile pyIsSpace).reverse.dropWhile pyIsSpace
      = (l.dropWhile pyIsSpace).reverse :=
    (List.dropWhile_sublist _).eq_of_length (by simp only [List.length_reverse]; omega)
  rw [h1] at h2
  exact h2

theorem stripL_append_space (cd ad : List Char)
    (hc : stripL cd = cd) (hcd : cd ≠ []) (ha : stripL ad = ad) :
    stripL (cd ++ ' ' :: ad)
      = if ad = [] then rstripL cd else rstripL (cd ++ ' ' :: ad) := by
  obtain ⟨hcf, hcb⟩ := stripped_parts hc
  obtain ⟨x, xs, rfl⟩ : ∃ x xs, cd = x :: xs := by
    cases cd with
    | nil => exact absurd rfl hcd
    | cons x xs => exact ⟨x, xs, rfl⟩
  have hx : pyIsSpace x = false := dropWhile_head_false hcf
  have hfront : ((x :: xs) ++ ' ' :: ad).dropWhile pyIsSpace = (x :: xs) ++ ' ' :: ad :=
    dropWhile_append_of_head xs (' ' :: ad) hx
  by_cases had : ad = []
  · subst had
    rw [if_pos rfl]
    unfold stripL rstripL
    rw [hfront]
    have hrev : ((x :: xs) ++ ' ' :: ([] : List Char)).reverse
        = ' ' :: (x :: xs).reverse := by simp
    rw [hrev, List.dropWhile_cons_of_pos (by simp [pyIsSpace])]
  · rw [if_neg had]
    unfold stripL rstripL
    rw [hfront]

theorem expandCommand_eq_spec (cmd args : String)
    (hc : cmd = pyStrip cmd) (hne : cmd ≠ "") (ha : args = pyStrip args) :
    expandCommand cmd args = specExpandCommand cmd args := by
  unfold expandCommand specExpandCommand
  by_cases hp : pyContains cmd argsPlaceholder
  · simp [hp]
  · simp only [hp, Bool.false_eq_true, if_false]
    have hcL : stripL cmd.data = cmd.data := (congrArg String.data hc).symm
    have haL : stripL args.data = args.data := (congrArg String.data ha).symm
    have hcdne : cmd.data ≠ [] := fun h0 => hne (by
      have he : cmd = String.mk cmd.data := rfl
      rw [he, h0])
    have hdata : (cmd ++ " " ++ args).data = cmd.data ++ ' ' :: args.data := by
      rw [data_append, data_append]
      have hsp : (" " : String).data = [' '] := rfl
      rw [hsp, List.append_assoc]
      rfl
    have key := stripL_append_space cmd.data args.data hcL hcdne haL
    unfold pyStrip pyRstrip
    rw [hdata, key]
    by_cases hae : args = ""
    · subst hae
      simp
    · have hade : args.data ≠ [] := fun h0 => hae (by
        have he : args = String.mk args.data := rfl
        rw [he, h0])
      simp [hae, hade]

/-- Claim C6 (amended): per matched command, every occurrence of the
placeholder is replaced by the args; otherwise the command, one space,
and the args are concatenated and the result is stripped by Python
str.strip — which, for stored commands that are trimmed and non-empty
(the data-model invariant) and for the stripped args the matcher
produces, agrees with the claimed append-then-trim-trailing rule.
The hi example yields exactly ["/greet there"]; the combo example
yields ["/cmd1 x y", "/cmd2 x y"] — args are appended to "/cmd1" as
well, since it lacks the placeholder, not the claimed ["/cmd1",
"/cmd2 x y"]. -/
theorem expansion_per_command :
    (∀ cmd args : String, cmd = pyStrip cmd → cmd ≠ "" → args = pyStrip args →
      expandCommand cmd args = specExpandCommand cmd args)
    ∧ (on_message [Alias.mk "hi" ["/greet \x7bargs\x7d"]]
        (Event.mk "hi there" "s" false)).2.map Event.message_str = ["/greet there"]
    ∧ (on_message [Alias.mk "combo" ["/cmd1", "/cmd2 \x7bargs\x7d"]]
        (Event.mk "combo x y" "s" false)).2.map Event.message_str
        = ["/cmd1 x y", "/cmd2 x y"] :=
  ⟨fun cmd args hc hne ha => expandCommand_eq_spec cmd args hc hne ha, rfl, rfl⟩

/-- Witness for expansion_per_command on a concrete trimmed command. -/
theorem expansion_per_command_witness :
    expandCommand "/e" "v" = specExpandCommand "/e" "v" :=
  expansion_per_command.1 "/e" "v" rfl (by decide) rfl

/-- Claim C6 counterexample: the combo alias on input "combo x y"
produces ["/cmd1 x y", "/cmd2 x y"], because a command without the
placeholder gets the args appended; the claimed output ["/cmd1",
"/cmd2 x y"] is wrong on the code (and inconsistent with the claim's
own general append rule). -/
theorem combo_expansion_counterexample :
    (on_message [Alias.mk "combo2" ["/cmd1", "/cmd2 \x7bargs\x7d"]]
        (Event.mk "combo2 x y" "s" false)).2.map Event.message_str
      = ["/cmd1 x y", "/cmd2 x y"]
    ∧ (["/cmd1 x y", "/cmd2 x y"] : List String) ≠ ["/cmd1", "/cmd2 x y"] :=
  ⟨rfl, by decide⟩
